import Mathlib

/-!
Verification development for the storepix template upgrade/reconciliation
subsystem: a shallow embedding of `src/utils/template-helper.js` (line-diff
engine) and `src/commands/init.js` (change classifier and upgrade
orchestrator), with theorems about the embedded definitions.
-/

namespace Storepix

/-! ## Line splitting (JS `text.split('\n')`)

JS `split` with a one-character separator cuts the string at every
occurrence of the separator; an empty input yields a single empty string. -/

/-- Accumulator-based splitting of a character list at newline characters.
The accumulator holds the current (reversed) line. -/
def splitAux : List Char → List Char → List (List Char)
  | [], acc => [acc.reverse]
  | c :: cs, acc =>
    if c = '\n' then acc.reverse :: splitAux cs []
    else splitAux cs (c :: acc)

/-- Embedding of JS `text.split('\n')`: split a string into its lines.
An empty string yields the one-element list `[""]`, matching JS semantics. -/
def splitLines (s : String) : List String :=
  (splitAux s.data []).map String.mk

/-- Joining with newline: the left inverse of splitting, used to show that
`splitLines` is injective. -/
def unsplit : List (List Char) → List Char
  | [] => []
  | [l] => l
  | l :: ls => l ++ '\n' :: unsplit ls

/-! ## The LCS dynamic program (`computeLCS` in template-helper.js)

The source fills an `(m+1) × (n+1)` table `dp` where `dp[i][j]` is the LCS
length of the first `i` old lines and the first `j` new lines, then
backtracks from `dp[m][n]` collecting the matched index pairs. -/

/-- The DP table entry `dp[i][j]` of `computeLCS`: rows/columns 0 stay 0;
otherwise if `a[i-1] === b[j-1]` then `dp[i-1][j-1] + 1`, else
`max(dp[i-1][j], dp[i][j-1])`. Out-of-range accesses default to `""`;
all calls keep the indices within range. -/
def dp (a b : List String) : Nat → Nat → Nat
  | 0, _ => 0
  | _ + 1, 0 => 0
  | i + 1, j + 1 =>
    if a.getD i "" = b.getD j "" then dp a b i j + 1
    else max (dp a b i (j + 1)) (dp a b (i + 1) j)
  termination_by i j => (i, j)

/-- The backtracking loop of `computeLCS`: starting from `(i, j)`, on a line
match record the 0-based pair and step diagonally; otherwise step toward the
larger neighbour (`dp[i-1][j] > dp[i][j-1]` steps in the old direction, ties
step in the new direction). The JS builds the list with `unshift`, so the
result is in increasing order. -/
def backtrack (a b : List String) : Nat → Nat → List (Nat × Nat)
  | 0, _ => []
  | _ + 1, 0 => []
  | i + 1, j + 1 =>
    if a.getD i "" = b.getD j "" then backtrack a b i j ++ [(i, j)]
    else if dp a b i (j + 1) > dp a b (i + 1) j then backtrack a b i (j + 1)
    else backtrack a b (i + 1) j
  termination_by i j => (i, j)

/-- Embedding of `computeLCS(a, b)`: the matched `[aIndex, bIndex]` pairs. -/
def computeLCS (a b : List String) : List (Nat × Nat) :=
  backtrack a b a.length b.length

/-! ## Diff ops and the emission walk (`diff` in template-helper.js) -/

/-- The `type` field of a diff op. -/
inductive DiffType where
  | same
  | add
  | remove
deriving DecidableEq

/-- One element of the `diff` result: `{ type, line, content }` with a
1-based line number in the op's own original sequence. -/
structure DiffOp where
  type : DiffType
  line : Nat
  content : String
deriving DecidableEq

/-- The emission walk of `diff`: against the matched-pair list, every old
line before the next matched old index becomes a `remove`, every new line
before the next matched new index becomes an `add`, the matched pair itself
a `same` (carrying the old-side position); trailing unmatched lines are
emitted after the last pair. The JS mutable cursors `oldIndex`/`newIndex`
are the two `Nat` arguments; after the catch-up loops the cursor sits at
`max cursor matchedIndex`, which the embedding writes explicitly. -/
def emitDiff (oldLines newLines : List String) :
    List (Nat × Nat) → Nat → Nat → List DiffOp
  | [], oldIndex, newIndex =>
    (List.range' oldIndex (oldLines.length - oldIndex)).map
      (fun k => ⟨.remove, k + 1, oldLines.getD k ""⟩)
    ++ (List.range' newIndex (newLines.length - newIndex)).map
      (fun k => ⟨.add, k + 1, newLines.getD k ""⟩)
  | (oldIdx, newIdx) :: rest, oldIndex, newIndex =>
    (List.range' oldIndex (oldIdx - oldIndex)).map
      (fun k => ⟨.remove, k + 1, oldLines.getD k ""⟩)
    ++ (List.range' newIndex (newIdx - newIndex)).map
      (fun k => ⟨.add, k + 1, newLines.getD k ""⟩)
    ++ ⟨.same, max oldIndex oldIdx + 1, oldLines.getD (max oldIndex oldIdx) ""⟩
      :: emitDiff oldLines newLines rest (max oldIndex oldIdx + 1) (max newIndex newIdx + 1)

/-- Embedding of `diff(oldText, newText)`. -/
def diff (oldText newText : String) : List DiffOp :=
  emitDiff (splitLines oldText) (splitLines newText)
    (computeLCS (splitLines oldText) (splitLines newText)) 0 0

/-- Embedding of `hasDifferences(oldText, newText)`: strict string
inequality, not diff-based. -/
def hasDifferences (oldText newText : String) : Bool :=
  oldText != newText

/-- Result of `countChanges`. -/
structure ChangeCount where
  additions : Nat
  removals : Nat
deriving DecidableEq

/-- Embedding of `countChanges(diffResult)`: tallies of add and remove ops. -/
def countChanges (diffResult : List DiffOp) : ChangeCount :=
  ⟨diffResult.countP (fun op => op.type = DiffType.add),
   diffResult.countP (fun op => op.type = DiffType.remove)⟩

/-! ## Change classifier (`analyzeChanges` in init.js)

Directories are modeled as association lists from relative file path to
file content; `existsSync` on a path inside a directory corresponds to a
successful lookup, and `hashFile` is an abstract content fingerprint
function (MD5 in the source). -/

/-- The `type` field of a change object. -/
inductive ChangeKind where
  | added
  | removed
  | modified
deriving DecidableEq

/-- One element of the `analyzeChanges` result:
`{ file, type, userModified }`. Records of kind `added`/`removed` leave
`userModified` at `false` (the JS object simply lacks the property, which
is falsy). -/
structure Change where
  file : String
  kind : ChangeKind
  userModified : Bool
deriving DecidableEq

/-- The JS expression `originalHash && userHash !== originalHash`: an
absent or empty `originalHash` is falsy, so the flag defaults to false
when no baseline fingerprint exists. -/
def jsUserModified (originalHash : Option String) (userHash : String) : Bool :=
  match originalHash with
  | none => false
  | some oh => (oh != "") && (userHash != oh)

/-- The body of the `analyzeChanges` loop for one file of the unioned path
set: present only in the package → `added`; present only in the user tree →
`removed`; present in both → compare hashes, emitting a `modified` record
(with the `userModified` flag) only when they differ. -/
def classifyFile (hashFile : String → String)
    (userDir packageDir originalHashes : List (String × String))
    (file : String) : Option Change :=
  match userDir.lookup file, packageDir.lookup file with
  | none, some _ => some ⟨file, .added, false⟩
  | some _, none => some ⟨file, .removed, false⟩
  | some userContent, some packageContent =>
    let userHash := hashFile userContent
    let packageHash := hashFile packageContent
    if userHash ≠ packageHash then
      some ⟨file, .modified, jsUserModified (originalHashes.lookup file) userHash⟩
    else none
  | none, none => none

/-- First-occurrence deduplication, the iteration order of the JS
`new Set([...userFiles, ...packageFiles])`. -/
def dedupFirst : List String → List String
  | [] => []
  | x :: xs => x :: (dedupFirst xs).filter (fun y => y != x)

/-- Embedding of `analyzeChanges(userDir, packageDir, originalHashes)`:
classify every path of the union of the user listing and the package
listing, in first-occurrence order. -/
def analyzeChanges (hashFile : String → String)
    (userDir packageDir originalHashes : List (String × String)) : List Change :=
  (dedupFirst (userDir.map Prod.fst ++ packageDir.map Prod.fst)).filterMap
    (classifyFile hashFile userDir packageDir originalHashes)

/-! ## Upgrade orchestrator (`upgrade` in init.js)

The orchestrator is modeled as a pure function from a filesystem state, the
CLI options, and the confirmation-prompt answer to an outcome plus the
ordered list of filesystem mutations it performs. Console output is not a
mutation and is not modeled; the timestamp strings the source embeds in
paths and in the version file are passed in as parameters. The template
directory and the status-bar directory are modeled as distinct directories
(their real paths differ whenever the template is not itself named
`status-bar`). -/

/-- Parsed content of `.storepix-version.json`. The timestamp field is
write-only in the source and is not modeled. `statusBarFiles` is an
optional property (`versionInfo.statusBarFiles || {}` in the source). -/
structure VersionInfo where
  version : String
  template : String
  files : List (String × String)
  statusBarFiles : Option (List (String × String))
deriving DecidableEq

/-- The options object of `upgrade(options)`. -/
structure UpgradeOptions where
  dir : String
  dryRun : Bool
  force : Bool
  showDiff : Bool
deriving DecidableEq

/-- The filesystem state the orchestrator consults. Directory listings are
association lists from relative path to content; a missing directory is
`none` where its absence matters (`getAllFiles` of a missing directory is
the empty listing, so the user template directory is a plain list).
`detectableTemplates` is the filtered listing of the project's `templates`
directory used by the detection fallback (entries other than `status-bar`
that contain an `index.html`). -/
structure Fs where
  targetDirExists : Bool
  versionFile : Option VersionInfo
  detectableTemplates : List String
  userTemplate : List (String × String)
  userStatusBar : Option (List (String × String))
  packageTemplate : Option (List (String × String))
  packageStatusBar : Option (List (String × String))
deriving DecidableEq

/-- One filesystem mutation performed by the orchestrator, in program
order. `copyFile dst content` is `cpSync(src, dst)` for a single file whose
source content is `content`; `copyTree` is the recursive backup copy;
`mkdirParent p` is `mkdirSync(dirname(p), { recursive: true })`. -/
inductive Effect where
  | mkdirRec (path : String)
  | mkdirParent (path : String)
  | copyTree (src dst : String)
  | copyFile (dst : String) (content : String)
  | writeFile (path : String) (content : String)
  | writeVersionFile (vi : VersionInfo)
deriving DecidableEq

/-- How one invocation of the orchestrator terminated. The three fatal
outcomes are the `process.exit(1)` sites. -/
inductive Outcome where
  | fatalNoDir
  | fatalNoTemplate
  | fatalMissingUpstream
  | upToDate
  | noChanges
  | dryRunStop
  | declined
  | completed
deriving DecidableEq

/-- Result of one orchestrator run: the terminal outcome, the ordered
mutations, and the change records, `none` when the run returned before
`analyzeChanges` was invoked. -/
structure UpgradeResult where
  outcome : Outcome
  effects : List Effect
  changes : Option (List Change)
deriving DecidableEq

/-- Path join (`join(a, b)` on posix). -/
def pjoin (a b : String) : String := a ++ "/" ++ b

/-- JS `file.startsWith('status-bar/')`, used by the apply loop to route a
prefixed change record to the status-bar directory. -/
def isStatusBarFile (file : String) : Bool :=
  "status-bar/".data.isPrefixOf file.data

/-- JS `file.replace('status-bar/', '')` for a file that starts with the
prefix: drop the 11 prefix characters. -/
def stripStatusBar (file : String) : String :=
  String.mk (file.data.drop 11)

/-- The mutable user tree threaded through the apply loop: the template
directory and the (possibly not yet existing) status-bar directory. -/
structure DirState where
  tmpl : List (String × String)
  statusBar : Option (List (String × String))
deriving DecidableEq

/-- Create-or-overwrite of one file in a directory listing. -/
def setFile : List (String × String) → String → String → List (String × String)
  | [], k, v => [(k, v)]
  | (k', v') :: rest, k, v =>
    if k' = k then (k, v) :: rest else (k', v') :: setFile rest k v

/-- Write one file into the user tree, on the status-bar side when the
change record's path carries the `status-bar/` prefix (writing into a
missing status-bar directory creates it, as `mkdirSync`/`cpSync` do). -/
def writeUser (st : DirState) (sb : Bool) (rel content : String) : DirState :=
  if sb then { st with statusBar := some (setFile (st.statusBar.getD []) rel content) }
  else { st with tmpl := setFile st.tmpl rel content }

/-- Read one file of the user tree (`readFileSync(userPath)`). -/
def readUser (st : DirState) (sb : Bool) (rel : String) : String :=
  if sb then ((st.statusBar.getD []).lookup rel).getD ""
  else (st.tmpl.lookup rel).getD ""

/-- The absolute path the apply loop computes for a change record. -/
def userPathOf (targetDir userTemplateDir : String) (c : Change) : String :=
  if isStatusBarFile c.file then pjoin (pjoin targetDir "templates") c.file
  else pjoin userTemplateDir c.file

/-- The path of a change record relative to its own directory (primary
template directory, or status-bar directory after stripping the prefix). -/
def relFileOf (c : Change) : String :=
  if isStatusBarFile c.file then stripStatusBar c.file else c.file

/-- The upstream content the apply loop copies for a change record. -/
def packageContentOf (packageTemplate packageStatusBar : List (String × String))
    (c : Change) : String :=
  if isStatusBarFile c.file then
    (packageStatusBar.lookup (stripStatusBar c.file)).getD ""
  else (packageTemplate.lookup c.file).getD ""

/-- The user tree's current content at a change record's path. -/
def userContentOf (st : DirState) (c : Change) : String :=
  readUser st (isStatusBarFile c.file) (relFileOf c)

/-- One iteration of the apply loop: route the record, then
`added` → create parent directories and copy the upstream file;
`removed` → keep the user's file, no action;
`modified` with local modifications → save the user's current content to
the `.orig` sidecar, then copy the upstream file;
`modified` otherwise → copy the upstream file.
Returns the new user tree, the mutations, and the `appliedCount` delta. -/
def applyOne (targetDir userTemplateDir : String)
    (packageTemplate packageStatusBar : List (String × String))
    (st : DirState) (c : Change) : DirState × List Effect × Nat :=
  let sb := isStatusBarFile c.file
  let relativeFile := relFileOf c
  let userPath := userPathOf targetDir userTemplateDir c
  let packageContent := packageContentOf packageTemplate packageStatusBar c
  match c.kind with
  | .added =>
    (writeUser st sb relativeFile packageContent,
     [.mkdirParent userPath, .copyFile userPath packageContent], 1)
  | .removed => (st, [], 0)
  | .modified =>
    if c.userModified then
      let userContent := readUser st sb relativeFile
      (writeUser (writeUser st sb (relativeFile ++ ".orig") userContent)
          sb relativeFile packageContent,
       [.writeFile (userPath ++ ".orig") userContent,
        .copyFile userPath packageContent], 1)
    else
      (writeUser st sb relativeFile packageContent,
       [.copyFile userPath packageContent], 1)

/-- The apply loop over all change records, threading the user tree. -/
def applyChanges (targetDir userTemplateDir : String)
    (packageTemplate packageStatusBar : List (String × String)) :
    DirState → List Change → DirState × List Effect × Nat
  | st, [] => (st, [], 0)
  | st, c :: cs =>
    let r := applyOne targetDir userTemplateDir packageTemplate packageStatusBar st c
    let r' := applyChanges targetDir userTemplateDir packageTemplate packageStatusBar r.1 cs
    (r'.1, r.2.1 ++ r'.2.1, r.2.2 + r'.2.2)

/-- Embedding of `updateVersionFile`: re-fingerprint the (current) user
tree and assemble the fresh version record; `statusBarFiles` is included
only when the status-bar directory exists. -/
def mkVersionInfo (hashFile : String → String) (pkgVersion template : String)
    (st : DirState) : VersionInfo :=
  ⟨pkgVersion, template,
   st.tmpl.map (fun pc => (pc.1, hashFile pc.2)),
   st.statusBar.map (fun l => l.map (fun pc => (pc.1, hashFile pc.2)))⟩

/-- The change-record list the orchestrator computes: the primary template
reconciliation, followed by the status-bar reconciliation (when the package
ships a status-bar directory) with each record's path qualified by the
`status-bar/` prefix. -/
def upgradeChanges (hashFile : String → String) (fs : Fs) (vi : VersionInfo)
    (packageTemplate : List (String × String)) : List Change :=
  analyzeChanges hashFile fs.userTemplate packageTemplate vi.files
  ++ match fs.packageStatusBar with
     | some pkgSB =>
       (analyzeChanges hashFile (fs.userStatusBar.getD []) pkgSB
         (vi.statusBarFiles.getD [])).map
         (fun c => { c with file := "status-bar/" ++ c.file })
     | none => []

/-- Embedding of `upgrade(options)`. `pkgVersion` is the running tool's
`pkg.version`, `timestamp` the `Date.now()` value used in the backup path,
and `promptAnswer` the user's reply to the confirmation prompt. -/
def upgrade (hashFile : String → String) (pkgVersion timestamp : String)
    (options : UpgradeOptions) (fs : Fs) (promptAnswer : Bool) : UpgradeResult :=
  if fs.targetDirExists = false then ⟨.fatalNoDir, [], none⟩
  else
    let viLoaded : Option VersionInfo :=
      match fs.versionFile with
      | some vi => some vi
      | none =>
        match fs.detectableTemplates with
        | [] => none
        | t :: _ => some ⟨"0.0.0", t, [], none⟩
    match viLoaded with
    | none => ⟨.fatalNoTemplate, [], none⟩
    | some vi =>
      if vi.version = pkgVersion ∧ options.force = false then ⟨.upToDate, [], none⟩
      else
        match fs.packageTemplate with
        | none => ⟨.fatalMissingUpstream, [], none⟩
        | some pkgT =>
          let userTemplateDir := pjoin (pjoin options.dir "templates") vi.template
          let changes := upgradeChanges hashFile fs vi pkgT
          if changes = [] then
            if options.dryRun then ⟨.noChanges, [], some []⟩
            else
              ⟨.noChanges,
               [.writeVersionFile (mkVersionInfo hashFile pkgVersion vi.template
                 ⟨fs.userTemplate, fs.userStatusBar⟩)],
               some []⟩
          else if options.dryRun then ⟨.dryRunStop, [], some changes⟩
          else if promptAnswer = false then ⟨.declined, [], some changes⟩
          else
            let backupDir := pjoin options.dir (".storepix-backup-" ++ timestamp)
            let backupEffects :=
              [.mkdirRec backupDir,
               .copyTree userTemplateDir (pjoin backupDir vi.template)]
              ++ if fs.userStatusBar.isSome then
                   [Effect.copyTree (pjoin (pjoin options.dir "templates") "status-bar")
                     (pjoin backupDir "status-bar")]
                 else []
            let applied := applyChanges options.dir userTemplateDir pkgT
              (fs.packageStatusBar.getD []) ⟨fs.userTemplate, fs.userStatusBar⟩ changes
            ⟨.completed,
             backupEffects ++ applied.2.1
               ++ [.writeVersionFile (mkVersionInfo hashFile pkgVersion vi.template applied.1)],
             some changes⟩

/-! ## Proof support: structure of the backtracked matched-pair list -/

/-- Predicate `Bounded L lo1 lo2 hi1 hi2`: the index pairs of `L` are strictly
increasing in both components, starting at or above `(lo1, lo2)` and
staying below `(hi1, hi2)`. The backtracking always produces such a list. -/
def Bounded : List (Nat × Nat) → Nat → Nat → Nat → Nat → Prop
  | [], _, _, _, _ => True
  | p :: rest, lo1, lo2, hi1, hi2 =>
    lo1 ≤ p.1 ∧ lo2 ≤ p.2 ∧ p.1 < hi1 ∧ p.2 < hi2 ∧
      Bounded rest (p.1 + 1) (p.2 + 1) hi1 hi2

/-! ## Lemmas about the LCS table and the backtracking -/

/-- The LCS-length table is symmetric in its two sequences. -/
theorem dp_symm (a b : List String) (i j : Nat) : dp a b i j = dp b a j i := by
  induction i, j using dp.induct a b with
  | case1 j => cases j <;> simp [dp]
  | case2 i => simp [dp]
  | case3 i j h ih =>
    rw [dp, dp, if_pos h, if_pos h.symm, ih]
  | case4 i j h ih1 ih2 =>
    rw [dp, dp, if_neg h, if_neg (fun hc => h hc.symm), ih1, ih2, Nat.max_comm]

/-- The backtracked matched-pair list has exactly `dp` entries. -/
theorem backtrack_length (a b : List String) (i j : Nat) :
    (backtrack a b i j).length = dp a b i j := by
  induction i, j using backtrack.induct a b with
  | case1 j => cases j <;> simp [backtrack, dp]
  | case2 i => simp [backtrack, dp]
  | case3 i j h ih =>
    rw [backtrack, dp, if_pos h, if_pos h]
    simp [ih]
  | case4 i j h hgt ih =>
    rw [backtrack, dp, if_neg h, if_neg h, if_pos hgt, ih,
      Nat.max_eq_left (Nat.le_of_lt hgt)]
  | case5 i j h hgt ih =>
    rw [backtrack, dp, if_neg h, if_neg h, if_neg hgt, ih,
      Nat.max_eq_right (Nat.le_of_not_lt hgt)]

/-- Widening the upper bounds preserves `Bounded`. -/
theorem Bounded.mono {L : List (Nat × Nat)} {lo1 lo2 hi1 hi2 hi1' hi2' : Nat}
    (hb : Bounded L lo1 lo2 hi1 hi2) (h1 : hi1 ≤ hi1') (h2 : hi2 ≤ hi2') :
    Bounded L lo1 lo2 hi1' hi2' := by
  induction L generalizing lo1 lo2 with
  | nil => trivial
  | cons p rest ih =>
    obtain ⟨hx1, hx2, hx3, hx4, hrest⟩ := hb
    exact ⟨hx1, hx2, Nat.lt_of_lt_of_le hx3 h1, Nat.lt_of_lt_of_le hx4 h2, ih hrest⟩

/-- Appending one pair at or above the old upper bounds preserves
`Bounded` with enlarged upper bounds. -/
theorem Bounded.append_last {L : List (Nat × Nat)} {lo1 lo2 hi1 hi2 x y hi1' hi2' : Nat}
    (hb : Bounded L lo1 lo2 hi1 hi2) (hl1 : lo1 ≤ x) (hl2 : lo2 ≤ y)
    (hh1 : hi1 ≤ x) (hh2 : hi2 ≤ y) (hx : x < hi1') (hy : y < hi2') :
    Bounded (L ++ [(x, y)]) lo1 lo2 hi1' hi2' := by
  induction L generalizing lo1 lo2 with
  | nil => exact ⟨hl1, hl2, hx, hy, trivial⟩
  | cons p rest ih =>
    obtain ⟨hx1, hx2, hx3, hx4, hrest⟩ := hb
    exact ⟨hx1, hx2, Nat.lt_of_lt_of_le hx3 (Nat.le_trans hh1 (Nat.le_of_lt hx)),
      Nat.lt_of_lt_of_le hx4 (Nat.le_trans hh2 (Nat.le_of_lt hy)),
      ih hrest (Nat.le_trans (Nat.succ_le_of_lt hx3) hh1)
        (Nat.le_trans (Nat.succ_le_of_lt hx4) hh2)⟩

/-- The backtracking produces a strictly increasing in-bounds pair list. -/
theorem backtrack_bounded (a b : List String) (i j : Nat) :
    Bounded (backtrack a b i j) 0 0 i j := by
  induction i, j using backtrack.induct a b with
  | case1 j => rw [backtrack]; trivial
  | case2 i => rw [backtrack]; trivial
  | case3 i j h ih =>
    rw [backtrack, if_pos h]
    exact ih.append_last (Nat.zero_le i) (Nat.zero_le j) (Nat.le_refl i)
      (Nat.le_refl j) (Nat.lt_succ_self i) (Nat.lt_succ_self j)
  | case4 i j h hgt ih =>
    rw [backtrack, if_neg h, if_pos hgt]
    exact ih.mono (Nat.le_succ i) (Nat.le_refl (j + 1))
  | case5 i j h hgt ih =>
    rw [backtrack, if_neg h, if_neg hgt]
    exact ih.mono (Nat.le_refl (i + 1)) (Nat.le_succ j)

/-- A bounded pair list cannot have more entries than either index range. -/
theorem Bounded.length_le {L : List (Nat × Nat)} {lo1 lo2 hi1 hi2 : Nat}
    (hb : Bounded L lo1 lo2 hi1 hi2) :
    L.length ≤ hi1 - lo1 ∧ L.length ≤ hi2 - lo2 := by
  induction L generalizing lo1 lo2 with
  | nil => simp
  | cons p rest ih =>
    obtain ⟨hx1, hx2, hx3, hx4, hrest⟩ := hb
    have := ih hrest
    constructor <;> simp only [List.length_cons] <;> omega

/-- Every pair recorded by the backtracking pairs equal lines. -/
theorem backtrack_matches (a b : List String) (i j : Nat) :
    ∀ p ∈ backtrack a b i j, a.getD p.1 "" = b.getD p.2 "" := by
  induction i, j using backtrack.induct a b with
  | case1 j => simp [backtrack]
  | case2 i => simp [backtrack]
  | case3 i j h ih =>
    rw [backtrack, if_pos h]
    intro p hp
    rcases List.mem_append.mp hp with hp' | hp'
    · exact ih p hp'
    · simp only [List.mem_singleton] at hp'
      subst hp'
      exact h
  | case4 i j h hgt ih =>
    rw [backtrack, if_neg h, if_pos hgt]
    exact ih
  | case5 i j h hgt ih =>
    rw [backtrack, if_neg h, if_neg hgt]
    exact ih

/-! ## The identity diff -/

/-- Backtracking a text against itself records the full diagonal. -/
theorem backtrack_diag (a : List String) (i : Nat) (hi : i ≤ a.length) :
    backtrack a a i i = (List.range' 0 i).map (fun k => (k, k)) := by
  induction i with
  | zero => rw [backtrack]; simp
  | succ i ih =>
    rw [backtrack, if_pos rfl, ih (by omega)]
    rw [show i + 1 = 1 + i by omega, ← List.range'_append_1 0 i 1]
    simp

/-- Emitting along a diagonal matched-pair list yields one `same` op per
line position, in order. -/
theorem emitDiff_diag (L : List String) :
    ∀ (c k : Nat), k + c = L.length →
    emitDiff L L ((List.range' k c).map (fun t => (t, t))) k k
      = (List.range' k c).map (fun t => ⟨DiffType.same, t + 1, L.getD t ""⟩) := by
  intro c
  induction c with
  | zero =>
    intro k hk
    rw [List.range'_zero, List.map_nil, List.map_nil, emitDiff]
    simp [show L.length - k = 0 by omega]
  | succ c ih =>
    intro k hk
    rw [List.range'_succ, List.map_cons, List.map_cons, emitDiff]
    simp only [Nat.max_self, Nat.sub_self, List.range'_zero, List.map_nil,
      List.nil_append]
    rw [ih (k + 1) (by omega)]

/-! ## Lemmas about the emission walk -/

/-- Number of `add` ops emitted against a bounded matched-pair list. -/
theorem emitDiff_count_add (old new : List String) :
    ∀ (L : List (Nat × Nat)) (oi ni : Nat),
    Bounded L oi ni old.length new.length →
    (emitDiff old new L oi ni).countP (fun op => op.type = DiffType.add)
      = (new.length - ni) - L.length := by
  intro L
  induction L with
  | nil =>
    intro oi ni _
    simp [emitDiff, List.countP_map, Function.comp_def, List.countP_eq_length]
  | cons p rest ih =>
    obtain ⟨x, y⟩ := p
    intro oi ni hb
    obtain ⟨h1, h2, h3, h4, hrest⟩ := hb
    have hlen := hrest.length_le
    rw [emitDiff]
    rw [Nat.max_eq_right h1, Nat.max_eq_right h2]
    simp only [List.countP_append, List.countP_cons, List.countP_map,
      Function.comp_def, List.length_cons]
    rw [ih (x + 1) (y + 1) hrest]
    simp only [reduceCtorEq, decide_False, decide_True, List.countP_false,
      List.countP_true, Function.const_apply, List.length_range', eq_self_iff_true,
      if_false, if_true, Bool.false_eq_true]
    omega

/-- Number of `remove` ops emitted against a bounded matched-pair list. -/
theorem emitDiff_count_remove (old new : List String) :
    ∀ (L : List (Nat × Nat)) (oi ni : Nat),
    Bounded L oi ni old.length new.length →
    (emitDiff old new L oi ni).countP (fun op => op.type = DiffType.remove)
      = (old.length - oi) - L.length := by
  intro L
  induction L with
  | nil =>
    intro oi ni _
    simp [emitDiff, List.countP_map, Function.comp_def, List.countP_eq_length]
  | cons p rest ih =>
    obtain ⟨x, y⟩ := p
    intro oi ni hb
    obtain ⟨h1, h2, h3, h4, hrest⟩ := hb
    have hlen := hrest.length_le
    rw [emitDiff]
    rw [Nat.max_eq_right h1, Nat.max_eq_right h2]
    simp only [List.countP_append, List.countP_cons, List.countP_map,
      Function.comp_def, List.length_cons]
    rw [ih (x + 1) (y + 1) hrest]
    simp only [reduceCtorEq, decide_False, decide_True, List.countP_false,
      List.countP_true, Function.const_apply, List.length_range', eq_self_iff_true,
      if_false, if_true, Bool.false_eq_true]
    omega

/-- Reading a list back out of its index range. -/
theorem map_getD_range' {α : Type} (l : List α) (d : α) :
    ∀ (c i : Nat), c = l.length - i →
    (List.range' i c).map (fun k => l.getD k d) = l.drop i := by
  intro c
  induction c with
  | zero =>
    intro i hi
    simp only [List.range'_zero, List.map_nil]
    exact (List.drop_eq_nil_iff.mpr (by omega)).symm
  | succ c ih =>
    intro i hi
    have hlt : i < l.length := by omega
    rw [List.range'_succ, List.map_cons, ih (i + 1) (by omega),
      List.drop_eq_getElem_cons hlt, List.getD_eq_getElem l d hlt]

/-- Splitting an index range at an interior point. -/
theorem range'_split {oi x m : Nat} (h1 : oi ≤ x) (h2 : x < m) :
    List.range' oi (m - oi)
      = List.range' oi (x - oi) ++ x :: List.range' (x + 1) (m - (x + 1)) := by
  have h5 : x :: List.range' (x + 1) (m - (x + 1)) = List.range' x (m - x) := by
    rw [show m - x = (m - (x + 1)) + 1 by omega, List.range'_succ]
  rw [h5]
  have h6 := List.range'_append_1 oi (x - oi) (m - x)
  rw [show oi + (x - oi) = x by omega, show (m - x) + (x - oi) = m - oi by omega] at h6
  exact h6.symm

/-- The old-side subsequence of the emission (the `same` and `remove` ops,
in order) carries exactly the old line positions from the cursor on, each
with its 1-based line number and its line content. -/
theorem emitDiff_oldSide (old new : List String) :
    ∀ (L : List (Nat × Nat)) (oi ni : Nat),
    Bounded L oi ni old.length new.length →
    ((emitDiff old new L oi ni).filter (fun op => op.type ≠ DiffType.add)).map
        (fun op => (op.line, op.content))
      = (List.range' oi (old.length - oi)).map (fun k => (k + 1, old.getD k "")) := by
  intro L
  induction L with
  | nil =>
    intro oi ni _
    simp [emitDiff, List.filter_append, List.filter_map, Function.comp_def]
  | cons p rest ih =>
    obtain ⟨x, y⟩ := p
    intro oi ni hb
    obtain ⟨h1, h2, h3, h4, hrest⟩ := hb
    have hre := ih (x + 1) (y + 1) hrest
    rw [emitDiff, Nat.max_eq_right h1, Nat.max_eq_right h2,
      range'_split h1 h3]
    simp only [ne_eq, List.filter_append, List.filter_cons, List.filter_map,
      Function.comp_def, reduceCtorEq, not_false_eq_true, not_true_eq_false,
      decide_True, decide_False, Bool.false_eq_true, if_true, if_false,
      ite_true, ite_false, List.filter_true, List.filter_false,
      List.map_append, List.map_map, List.map_cons, List.map_nil,
      List.append_nil, List.nil_append] at hre ⊢
    rw [hre]

/-- The new-side subsequence of the emission (the `same` and `add` ops, in
order) carries exactly the new line contents from the cursor on; for `same`
ops this uses that matched pairs pair equal lines. -/
theorem emitDiff_newSide (old new : List String) :
    ∀ (L : List (Nat × Nat)) (oi ni : Nat),
    Bounded L oi ni old.length new.length →
    (∀ p ∈ L, old.getD p.1 "" = new.getD p.2 "") →
    ((emitDiff old new L oi ni).filter (fun op => op.type ≠ DiffType.remove)).map
        (fun op => op.content)
      = (List.range' ni (new.length - ni)).map (fun k => new.getD k "") := by
  intro L
  induction L with
  | nil =>
    intro oi ni _ _
    simp [emitDiff, List.filter_append, List.filter_map, Function.comp_def]
  | cons p rest ih =>
    obtain ⟨x, y⟩ := p
    intro oi ni hb hm
    obtain ⟨h1, h2, h3, h4, hrest⟩ := hb
    have hxy : old.getD x "" = new.getD y "" := hm (x, y) (List.mem_cons_self _ _)
    have hre := ih (x + 1) (y + 1) hrest (fun q hq => hm q (List.mem_cons_of_mem _ hq))
    rw [emitDiff, Nat.max_eq_right h1, Nat.max_eq_right h2,
      range'_split h2 h4]
    simp only [ne_eq, List.filter_append, List.filter_cons, List.filter_map,
      Function.comp_def, reduceCtorEq, not_false_eq_true, not_true_eq_false,
      decide_True, decide_False, Bool.false_eq_true, if_true, if_false,
      ite_true, ite_false, List.filter_true, List.filter_false,
      List.map_append, List.map_map, List.map_cons, List.map_nil,
      List.append_nil, List.nil_append] at hre ⊢
    rw [hre, hxy]

/-! ## Facts about `computeLCS` as a whole -/

/-- The matched-pair list of `computeLCS` is strictly increasing and in
bounds. -/
theorem computeLCS_bounded (a b : List String) :
    Bounded (computeLCS a b) 0 0 a.length b.length :=
  backtrack_bounded a b a.length b.length

/-- The matched-pair list of `computeLCS` has `dp` entries. -/
theorem computeLCS_length (a b : List String) :
    (computeLCS a b).length = dp a b a.length b.length :=
  backtrack_length a b a.length b.length

/-- Every pair of `computeLCS` pairs equal lines. -/
theorem computeLCS_matches (a b : List String) :
    ∀ p ∈ computeLCS a b, a.getD p.1 "" = b.getD p.2 "" :=
  backtrack_matches a b a.length b.length

/-! ## Claim theorems about the diff engine -/

/-- C6. Diff identity law: for every text `T`, `diff T T` yields only
`Same` ops, exactly one per line of `T`, in order, with 1-based line
numbers `1..m` where `m` is the number of lines of `T` (the op at position
`k` is `Same` with line `k + 1` and the `k`-th line as content). -/
theorem diff_identity_law (T : String) :
    diff T T = (List.range' 0 (splitLines T).length).map
      (fun k => ⟨DiffType.same, k + 1, (splitLines T).getD k ""⟩) := by
  rw [diff, computeLCS, backtrack_diag (splitLines T) (splitLines T).length (Nat.le_refl _),
    emitDiff_diag (splitLines T) (splitLines T).length 0 (by omega)]

/-- C7. Diff count symmetry: swapping the two texts swaps the addition and
removal tallies of `countChanges`. -/
theorem diff_count_symmetry (oldText newText : String) :
    (countChanges (diff oldText newText)).additions
        = (countChanges (diff newText oldText)).removals
    ∧ (countChanges (diff oldText newText)).removals
        = (countChanges (diff newText oldText)).additions := by
  have h1 := emitDiff_count_add (splitLines oldText) (splitLines newText)
    (computeLCS (splitLines oldText) (splitLines newText)) 0 0
    (computeLCS_bounded _ _)
  have h2 := emitDiff_count_remove (splitLines oldText) (splitLines newText)
    (computeLCS (splitLines oldText) (splitLines newText)) 0 0
    (computeLCS_bounded _ _)
  have h3 := emitDiff_count_add (splitLines newText) (splitLines oldText)
    (computeLCS (splitLines newText) (splitLines oldText)) 0 0
    (computeLCS_bounded _ _)
  have h4 := emitDiff_count_remove (splitLines newText) (splitLines oldText)
    (computeLCS (splitLines newText) (splitLines oldText)) 0 0
    (computeLCS_bounded _ _)
  have h5 : (computeLCS (splitLines oldText) (splitLines newText)).length
      = (computeLCS (splitLines newText) (splitLines oldText)).length := by
    rw [computeLCS_length, computeLCS_length, dp_symm]
  simp only [countChanges, diff] at h1 h2 h3 h4 ⊢
  constructor <;> omega

/-- C8. Empty-string split semantics: `diff "" "line1\nline2"` treats the
empty old text as a single empty-string line, producing exactly one
`Remove` op (content `""`, line 1) followed by two `Add` ops (contents
`"line1"` and `"line2"`, lines 1 and 2) — not zero `Remove` ops. -/
theorem diff_empty_string_split :
    diff "" "line1\nline2"
      = [⟨DiffType.remove, 1, ""⟩, ⟨DiffType.add, 1, "line1"⟩,
         ⟨DiffType.add, 2, "line2"⟩] := by
  simp [diff, splitLines, splitAux, computeLCS, backtrack, dp, emitDiff,
    List.range']

/-- C9. Implicit diff partition invariant, old side with line numbers, old
side contents, and new side contents: the `same`/`remove` subsequence of
the ops, in output order, is exactly the old text's line sequence with
1-based old-side line numbers, and the `same`/`add` subsequence's contents
are exactly the new text's line sequence; every input line is accounted for
by exactly one op on its side. -/
theorem diff_partition_invariant (oldText newText : String) :
    (((diff oldText newText).filter
        (fun op => op.type ≠ DiffType.add)).map (fun op => (op.line, op.content))
      = (List.range' 0 (splitLines oldText).length).map
          (fun k => (k + 1, (splitLines oldText).getD k "")))
    ∧ (((diff oldText newText).filter
        (fun op => op.type ≠ DiffType.add)).map (fun op => op.content)
      = splitLines oldText)
    ∧ (((diff oldText newText).filter
        (fun op => op.type ≠ DiffType.remove)).map (fun op => op.content)
      = splitLines newText) := by
  have h1 := emitDiff_oldSide (splitLines oldText) (splitLines newText)
    (computeLCS (splitLines oldText) (splitLines newText)) 0 0
    (computeLCS_bounded _ _)
  have h2 := emitDiff_newSide (splitLines oldText) (splitLines newText)
    (computeLCS (splitLines oldText) (splitLines newText)) 0 0
    (computeLCS_bounded _ _) (computeLCS_matches _ _)
  simp only [Nat.sub_zero] at h1 h2
  refine ⟨?_, ?_, ?_⟩
  · rw [diff]
    exact h1
  · have h3 := congrArg (List.map Prod.snd) h1
    simp only [List.map_map, Function.comp_def] at h3
    rw [diff, h3,
      map_getD_range' (splitLines oldText) "" (splitLines oldText).length 0 (by omega),
      List.drop_zero]
  · rw [diff, h2,
      map_getD_range' (splitLines newText) "" (splitLines newText).length 0 (by omega),
      List.drop_zero]

/-! ## Injectivity of line splitting and the forced diagonal -/

/-- Splitting never yields an empty list of lines. -/
theorem splitAux_ne_nil (cs : List Char) : ∀ acc, splitAux cs acc ≠ [] := by
  induction cs with
  | nil => intro acc; simp [splitAux]
  | cons c cs ih =>
    intro acc
    rw [splitAux]
    split
    · simp
    · exact ih (c :: acc)

/-- Joining the split lines with newlines restores the input characters. -/
theorem unsplit_splitAux (cs : List Char) :
    ∀ acc, unsplit (splitAux cs acc) = acc.reverse ++ cs := by
  induction cs with
  | nil => intro acc; simp [splitAux, unsplit]
  | cons c cs ih =>
    intro acc
    rw [splitAux]
    by_cases hc : c = '\n'
    · rw [if_pos hc]
      obtain ⟨hd, tl, heq⟩ := List.exists_cons_of_ne_nil (splitAux_ne_nil cs [])
      have h5 := ih []
      rw [heq] at h5 ⊢
      simp only [List.reverse_nil, List.nil_append] at h5
      simp only [unsplit, h5, hc]
    · rw [if_neg hc, ih (c :: acc)]
      simp

/-- Injectivity of `splitLines`: two texts with equal line lists are equal. -/
theorem splitLines_injective {s t : String} (h : splitLines s = splitLines t) :
    s = t := by
  have hmk : Function.Injective String.mk := fun x y hxy => by
    injection hxy
  have hchars : splitAux s.data [] = splitAux t.data [] :=
    List.map_injective_iff.mpr hmk h
  have hdata := congrArg unsplit hchars
  rw [unsplit_splitAux s.data [], unsplit_splitAux t.data []] at hdata
  simp only [List.reverse_nil, List.nil_append] at hdata
  exact String.ext hdata

/-- A bounded pair list of full length is forced to be the diagonal. -/
theorem Bounded.full_diag {L : List (Nat × Nat)} :
    ∀ {k m : Nat}, Bounded L k k m m → L.length = m - k →
    L = (List.range' k (m - k)).map (fun t => (t, t)) := by
  induction L with
  | nil =>
    intro k m _ hlen
    simp only [List.length_nil] at hlen
    rw [← hlen]
    simp
  | cons p rest ih =>
    intro k m hb hlen
    obtain ⟨x, y⟩ := p
    obtain ⟨h1, h2, h3, h4, hrest⟩ := hb
    have hr := hrest.length_le
    simp only [List.length_cons] at hlen
    have hx : x = k := by omega
    have hy : y = k := by omega
    rw [hx, hy] at hrest ⊢
    rw [ih hrest (by omega)]
    rw [show m - k = (m - (k + 1)) + 1 by omega, List.range'_succ]
    simp

/-- C10. Consistency of `hasDifferences` with `diff`: `hasDifferences a b`
is `false` exactly when `countChanges (diff a b)` reports zero additions
and zero removals, i.e. when the diff contains no `add` and no `remove`
op. -/
theorem hasDifferences_iff_diff_trivial (a b : String) :
    hasDifferences a b = false ↔
      (countChanges (diff a b)).additions = 0
        ∧ (countChanges (diff a b)).removals = 0 := by
  constructor
  · intro h
    have hab : a = b := by
      simpa [hasDifferences] using h
    subst hab
    have hdiag := backtrack_diag (splitLines a) (splitLines a).length (Nat.le_refl _)
    have hlen : (computeLCS (splitLines a) (splitLines a)).length
        = (splitLines a).length := by
      rw [computeLCS, hdiag]
      simp
    have h1 := emitDiff_count_add (splitLines a) (splitLines a)
      (computeLCS (splitLines a) (splitLines a)) 0 0 (computeLCS_bounded _ _)
    have h2 := emitDiff_count_remove (splitLines a) (splitLines a)
      (computeLCS (splitLines a) (splitLines a)) 0 0 (computeLCS_bounded _ _)
    simp only [countChanges, diff]
    omega
  · rintro ⟨hadd, hrem⟩
    have h1 := emitDiff_count_add (splitLines a) (splitLines b)
      (computeLCS (splitLines a) (splitLines b)) 0 0 (computeLCS_bounded _ _)
    have h2 := emitDiff_count_remove (splitLines a) (splitLines b)
      (computeLCS (splitLines a) (splitLines b)) 0 0 (computeLCS_bounded _ _)
    have hlen := (computeLCS_bounded (splitLines a) (splitLines b)).length_le
    simp only [countChanges, diff] at hadd hrem
    have hn : (splitLines a).length = (splitLines b).length := by omega
    have hL : (computeLCS (splitLines a) (splitLines b)).length
        = (splitLines a).length - 0 := by omega
    have hb0 := computeLCS_bounded (splitLines a) (splitLines b)
    rw [← hn] at hb0
    have hdiag := hb0.full_diag hL
    have hext : splitLines a = splitLines b := by
      apply List.ext_getElem hn
      intro i hi1 hi2
      have hmem : ((i, i) : Nat × Nat) ∈ computeLCS (splitLines a) (splitLines b) := by
        rw [hdiag]
        refine List.mem_map.mpr ⟨i, ?_, rfl⟩
        rw [List.mem_range'_1]
        omega
      have := computeLCS_matches (splitLines a) (splitLines b) (i, i) hmem
      rwa [List.getD_eq_getElem _ _ hi1, List.getD_eq_getElem _ _ hi2] at this
    have : a = b := splitLines_injective hext
    subst this
    simp [hasDifferences]

/-! ## Lemmas about the change classifier -/

/-- The classifier `classifyFile` only ever emits a record for the path it was asked
about. -/
theorem classifyFile_file (hashFile : String → String)
    (userDir packageDir originalHashes : List (String × String))
    (q : String) (c : Change)
    (h : classifyFile hashFile userDir packageDir originalHashes q = some c) :
    c.file = q := by
  rw [classifyFile] at h
  rcases hu : userDir.lookup q with _ | uc <;> rw [hu] at h <;>
    rcases hp : packageDir.lookup q with _ | pc <;> rw [hp] at h
  · exact absurd h (by simp)
  · exact (Option.some_injective _ h).symm ▸ rfl
  · exact (Option.some_injective _ h).symm ▸ rfl
  · simp only at h
    split at h
    · exact (Option.some_injective _ h).symm ▸ rfl
    · exact absurd h (by simp)

/-- Deduplication produces a duplicate-free list. -/
theorem dedupFirst_nodup (l : List String) : (dedupFirst l).Nodup := by
  induction l with
  | nil => simp [dedupFirst]
  | cons x xs ih =>
    rw [dedupFirst]
    refine List.Nodup.cons ?_ (List.Nodup.filter _ ih)
    intro hmem
    have := List.of_mem_filter hmem
    simp at this

/-- Deduplication preserves membership. -/
theorem mem_dedupFirst {l : List String} {p : String} :
    p ∈ dedupFirst l ↔ p ∈ l := by
  induction l with
  | nil => simp [dedupFirst]
  | cons x xs ih =>
    rw [dedupFirst]
    by_cases hx : p = x
    · subst hx; simp
    · simp only [List.mem_cons, hx, false_or]
      rw [← ih]
      constructor
      · intro hmem
        exact (List.mem_filter.mp hmem).1
      · intro hmem
        exact List.mem_filter.mpr ⟨hmem, by simp [hx]⟩

/-- An association-list lookup fails exactly when the key is absent. -/
theorem lookup_eq_none_iff {β : Type} {l : List (String × β)} {p : String} :
    l.lookup p = none ↔ p ∉ l.map Prod.fst := by
  induction l with
  | nil => simp
  | cons x xs ih =>
    obtain ⟨k, v⟩ := x
    by_cases hk : p = k
    · subst hk
      simp [List.lookup]
    · have hbeq : (p == k) = false := beq_eq_false_iff_ne.mpr hk
      simp only [List.lookup, hbeq]
      simp [hk, ih]

/-- Filtering a keyed `filterMap` over a duplicate-free key list for one
key isolates that key's record. -/
theorem filterMap_keyed_filter {f : String → Option Change}
    (hf : ∀ q c, f q = some c → c.file = q) :
    ∀ {l : List String}, l.Nodup → ∀ p : String,
    (l.filterMap f).filter (fun c => c.file == p)
      = if p ∈ l then (f p).toList else [] := by
  intro l
  induction l with
  | nil => intro _ p; simp
  | cons x xs ih =>
    intro hnd p
    have hnd' := hnd.of_cons
    have hx : x ∉ xs := by
      intro hmem
      exact (List.nodup_cons.mp hnd).1 hmem
    rw [List.filterMap_cons]
    by_cases hpx : p = x
    · subst hpx
      rcases hfx : f p with _ | c
      · simp [ih hnd' p, hx]
      · have hc : c.file = p := hf p c hfx
        simp [List.filter_cons, hc, ih hnd' p, hx]
    · have hpx' : ¬x = p := fun hxp => hpx hxp.symm
      rcases hfx : f x with _ | c
      · simp [ih hnd' p, List.mem_cons, hpx]
      · have hc : c.file = x := hf x c hfx
        simp [List.filter_cons, hc, hpx', ih hnd' p, List.mem_cons, hpx]

/-- The records `analyzeChanges` emits for one path: the classification of
that path when it appears in either directory listing, and nothing
otherwise. -/
theorem analyzeChanges_recordsFor (hashFile : String → String)
    (userDir packageDir originalHashes : List (String × String)) (p : String) :
    (analyzeChanges hashFile userDir packageDir originalHashes).filter
        (fun c => c.file == p)
      = if p ∈ userDir.map Prod.fst ∨ p ∈ packageDir.map Prod.fst
        then (classifyFile hashFile userDir packageDir originalHashes p).toList
        else [] := by
  rw [analyzeChanges,
    filterMap_keyed_filter (classifyFile_file hashFile userDir packageDir originalHashes)
      (dedupFirst_nodup _) p]
  by_cases hmem : p ∈ userDir.map Prod.fst ∨ p ∈ packageDir.map Prod.fst
  · rw [if_pos (mem_dedupFirst.mpr (List.mem_append.mpr hmem)), if_pos hmem]
  · rw [if_neg (fun hc => hmem (List.mem_append.mp (mem_dedupFirst.mp hc))),
      if_neg hmem]

/-- A successful lookup's key is among the listing's keys. -/
theorem mem_keys_of_lookup_some {β : Type} {l : List (String × β)} {p : String}
    {v : β} (h : l.lookup p = some v) : p ∈ l.map Prod.fst := by
  by_contra hcon
  rw [lookup_eq_none_iff.mpr hcon] at h
  exact absurd h (by simp)

/-- A successful lookup returns a pair of the listing. -/
theorem mem_of_lookup_eq_some {β : Type} {l : List (String × β)} {p : String}
    {v : β} (h : l.lookup p = some v) : (p, v) ∈ l := by
  induction l with
  | nil => simp [List.lookup] at h
  | cons x xs ih =>
    obtain ⟨k, w⟩ := x
    by_cases hk : p = k
    · subst hk
      have hbeq : (p == p) = true := beq_self_eq_true p
      simp only [List.lookup, hbeq, Option.some.injEq] at h
      subst h
      exact List.mem_cons_self _ _
    · have hbeq : (p == k) = false := beq_eq_false_iff_ne.mpr hk
      simp only [List.lookup, hbeq] at h
      exact List.mem_cons_of_mem _ (ih h)

/-! ## Claim theorems about the change classifier -/

/-- C1. Reconciler kind classification: for every path, the records
`analyzeChanges` emits for that path are exactly one `added` record when
the path is present only in the package directory, exactly one `removed`
record when it is present only in the user directory, exactly one
`modified` record when it is present in both with differing fingerprints,
and no record when it is present in both with identical fingerprints. -/
theorem analyzeChanges_classification (hashFile : String → String)
    (userDir packageDir originalHashes : List (String × String)) (p : String) :
    (∀ pc, userDir.lookup p = none → packageDir.lookup p = some pc →
      (analyzeChanges hashFile userDir packageDir originalHashes).filter
        (fun c => c.file == p) = [⟨p, ChangeKind.added, false⟩])
    ∧ (∀ uc, userDir.lookup p = some uc → packageDir.lookup p = none →
      (analyzeChanges hashFile userDir packageDir originalHashes).filter
        (fun c => c.file == p) = [⟨p, ChangeKind.removed, false⟩])
    ∧ (∀ uc pc, userDir.lookup p = some uc → packageDir.lookup p = some pc →
      hashFile uc ≠ hashFile pc →
      ∃ um : Bool, (analyzeChanges hashFile userDir packageDir originalHashes).filter
        (fun c => c.file == p) = [⟨p, ChangeKind.modified, um⟩])
    ∧ (∀ uc pc, userDir.lookup p = some uc → packageDir.lookup p = some pc →
      hashFile uc = hashFile pc →
      (analyzeChanges hashFile userDir packageDir originalHashes).filter
        (fun c => c.file == p) = []) := by
  refine ⟨?_, ?_, ?_, ?_⟩
  · intro pc hu hp
    rw [analyzeChanges_recordsFor, if_pos (Or.inr (mem_keys_of_lookup_some hp)),
      classifyFile, hu, hp]
    simp
  · intro uc hu hp
    rw [analyzeChanges_recordsFor, if_pos (Or.inl (mem_keys_of_lookup_some hu)),
      classifyFile, hu, hp]
    simp
  · intro uc pc hu hp hne
    refine ⟨jsUserModified (originalHashes.lookup p) (hashFile uc), ?_⟩
    rw [analyzeChanges_recordsFor, if_pos (Or.inl (mem_keys_of_lookup_some hu)),
      classifyFile, hu, hp]
    simp [hne]
  · intro uc pc hu hp heq
    rw [analyzeChanges_recordsFor, if_pos (Or.inl (mem_keys_of_lookup_some hu)),
      classifyFile, hu, hp]
    simp [heq]

/-- Witness for C1: a concrete run exhibiting the `added` branch. -/
theorem analyzeChanges_classification_witness :
    (([("a", "x")] : List (String × String)).lookup "b" = none
      ∧ ([("a", "x"), ("b", "y")] : List (String × String)).lookup "b" = some "y")
    ∧ (analyzeChanges id [("a", "x")] [("a", "x"), ("b", "y")] []).filter
        (fun c => c.file == "b") = [⟨"b", ChangeKind.added, false⟩] :=
  ⟨⟨by decide, by decide⟩,
   (analyzeChanges_classification id [("a", "x")] [("a", "x"), ("b", "y")] [] "b").1
     "y" (by decide) (by decide)⟩

/-- C2. `userModified` semantics: for a path present in both trees with
differing fingerprints, the emitted `modified` record's `userModified` flag
is true exactly when a (nonempty) baseline fingerprint exists for the path
and the user's fingerprint differs from it; with no baseline entry the flag
defaults to false. The hypothesis `hdigest` records that baseline
fingerprints are content digests, hence never the empty string. -/
theorem analyzeChanges_userModified (hashFile : String → String)
    (userDir packageDir originalHashes : List (String × String))
    (p uc pc : String)
    (hdigest : ∀ q ∈ originalHashes, q.2 ≠ "")
    (hu : userDir.lookup p = some uc) (hp : packageDir.lookup p = some pc)
    (hne : hashFile uc ≠ hashFile pc) :
    ∃ um : Bool,
      (analyzeChanges hashFile userDir packageDir originalHashes).filter
          (fun c => c.file == p) = [⟨p, ChangeKind.modified, um⟩]
      ∧ (um = true ↔ ∃ oh, originalHashes.lookup p = some oh ∧ hashFile uc ≠ oh)
      ∧ (originalHashes.lookup p = none → um = false) := by
  refine ⟨jsUserModified (originalHashes.lookup p) (hashFile uc), ?_, ?_, ?_⟩
  · rw [analyzeChanges_recordsFor, if_pos (Or.inl (mem_keys_of_lookup_some hu)),
      classifyFile, hu, hp]
    simp [hne]
  · rcases ho : originalHashes.lookup p with _ | oh
    · simp [jsUserModified]
    · have hoh : oh ≠ "" := hdigest (p, oh) (mem_of_lookup_eq_some ho)
      simp [jsUserModified, hoh, Bool.and_eq_true, bne_iff_ne]
  · intro ho
    rw [ho]
    simp [jsUserModified]

/-- Witness for C2: a concrete modified path with a baseline entry the
user diverged from. -/
theorem analyzeChanges_userModified_witness :
    ((∀ q ∈ ([("a", "h1")] : List (String × String)), q.2 ≠ "")
      ∧ ([("a", "h2")] : List (String × String)).lookup "a" = some "h2"
      ∧ ([("a", "h3")] : List (String × String)).lookup "a" = some "h3"
      ∧ id "h2" ≠ id "h3")
    ∧ ∃ um : Bool,
      (analyzeChanges id [("a", "h2")] [("a", "h3")] [("a", "h1")]).filter
          (fun c => c.file == "a") = [⟨"a", ChangeKind.modified, um⟩]
      ∧ (um = true ↔ ∃ oh, ([("a", "h1")] : List (String × String)).lookup "a"
            = some oh ∧ id "h2" ≠ oh)
      ∧ (([("a", "h1")] : List (String × String)).lookup "a" = none → um = false) :=
  ⟨⟨by decide, by decide, by decide, by decide⟩,
   analyzeChanges_userModified id [("a", "h2")] [("a", "h3")] [("a", "h1")]
     "a" "h2" "h3" (by decide) (by decide) (by decide) (by decide)⟩

/-! ## Claim theorems about the upgrade orchestrator -/

/-- C4. Up-to-date short-circuit: when the recorded baseline version equals
the running tool's version and the force flag is absent, the orchestrator
returns reporting up-to-date with no change records computed (`changes` is
`none`) and no filesystem mutation (`effects` is empty), independent of the
template directories' contents. -/
theorem upgrade_up_to_date_short_circuit (hashFile : String → String)
    (pkgVersion timestamp : String) (options : UpgradeOptions) (fs : Fs)
    (promptAnswer : Bool) (vi : VersionInfo)
    (hdir : fs.targetDirExists = true)
    (hvf : fs.versionFile = some vi)
    (hver : vi.version = pkgVersion)
    (hforce : options.force = false) :
    upgrade hashFile pkgVersion timestamp options fs promptAnswer
      = ⟨Outcome.upToDate, [], none⟩ := by
  rw [upgrade, hdir, hvf, if_neg (by simp)]
  simp only
  rw [if_pos ⟨hver, hforce⟩]

/-- Witness for C4: a concrete project whose recorded version matches the
tool version short-circuits. -/
theorem upgrade_up_to_date_short_circuit_witness :
    ((⟨true, some ⟨"1.2.3", "modern", [("a", "h")], none⟩, [],
        [("a", "x")], none, some [("a", "y")], none⟩ : Fs).targetDirExists = true
      ∧ (⟨"1.2.3", "modern", [("a", "h")], none⟩ : VersionInfo).version = "1.2.3"
      ∧ (⟨"proj", false, false, false⟩ : UpgradeOptions).force = false)
    ∧ upgrade id "1.2.3" "111" ⟨"proj", false, false, false⟩
        ⟨true, some ⟨"1.2.3", "modern", [("a", "h")], none⟩, [],
          [("a", "x")], none, some [("a", "y")], none⟩ true
      = ⟨Outcome.upToDate, [], none⟩ :=
  ⟨⟨rfl, rfl, rfl⟩,
   upgrade_up_to_date_short_circuit id "1.2.3" "111" ⟨"proj", false, false, false⟩
     ⟨true, some ⟨"1.2.3", "modern", [("a", "h")], none⟩, [],
       [("a", "x")], none, some [("a", "y")], none⟩ true
     ⟨"1.2.3", "modern", [("a", "h")], none⟩ rfl rfl rfl rfl⟩

/-- C5. Dry-run frame property: with the dry-run flag set, the orchestrator
performs no filesystem mutation at all — in particular no baseline/version
file write — on every path, including the path with change records (it
stops after display) and the no-changes path (the baseline refresh is
skipped). -/
theorem upgrade_dry_run_no_mutation (hashFile : String → String)
    (pkgVersion timestamp : String) (options : UpgradeOptions) (fs : Fs)
    (promptAnswer : Bool)
    (hdry : options.dryRun = true) :
    (upgrade hashFile pkgVersion timestamp options fs promptAnswer).effects = [] := by
  rw [upgrade]
  split
  · rfl
  · simp only [hdry, ite_true]
    split
    · rfl
    · split
      · rfl
      · split
        · rfl
        · split
          · rfl
          · rfl

/-- Witness for C5: a concrete dry run over a project with a pending
modified file performs no mutation. -/
theorem upgrade_dry_run_no_mutation_witness :
    (⟨"proj", true, false, false⟩ : UpgradeOptions).dryRun = true
    ∧ (upgrade id "2.0.0" "111" ⟨"proj", true, false, false⟩
        ⟨true, some ⟨"1.0.0", "modern", [("f.html", "old")], none⟩, [],
          [("f.html", "mine")], none, some [("f.html", "theirs")], none⟩
        true).effects = [] :=
  ⟨rfl,
   upgrade_dry_run_no_mutation id "2.0.0" "111" ⟨"proj", true, false, false⟩
     ⟨true, some ⟨"1.0.0", "modern", [("f.html", "old")], none⟩, [],
       [("f.html", "mine")], none, some [("f.html", "theirs")], none⟩
     true rfl⟩

/-! ## Proof support for the apply loop: reads survive unrelated writes -/

/-- Setting one key leaves every other key's lookup unchanged. -/
theorem lookup_setFile_ne (l : List (String × String)) (k v k' : String)
    (h : k' ≠ k) : (setFile l k v).lookup k' = l.lookup k' := by
  induction l with
  | nil =>
    simp only [setFile, List.lookup]
    rw [beq_eq_false_iff_ne.mpr h]
  | cons x xs ih =>
    obtain ⟨kx, vx⟩ := x
    rw [setFile]
    by_cases hk : kx = k
    · have h1 : (k' == k) = false := beq_eq_false_iff_ne.mpr h
      have h2 : (k' == kx) = false :=
        beq_eq_false_iff_ne.mpr (fun he => h (he.trans hk))
      rw [if_pos hk]
      simp [List.lookup, h1, h2]
    · rw [if_neg hk]
      simp only [List.lookup]
      rcases hbeq : k' == kx with _ | _
      · exact ih
      · rfl

/-- Writing one file leaves reads of any other dir-and-path unchanged. -/
theorem readUser_writeUser_ne (st : DirState) (sbw : Bool) (k v : String)
    (sbr : Bool) (rel : String) (h : sbw = sbr → k ≠ rel) :
    readUser (writeUser st sbw k v) sbr rel = readUser st sbr rel := by
  cases sbw <;> cases sbr <;> simp only [writeUser, readUser, Bool.false_eq_true,
    if_false, if_true, ite_true, ite_false, Option.getD_some]
  · rw [lookup_setFile_ne _ _ _ _ (fun hrk => (h rfl) hrk.symm)]
  · rw [lookup_setFile_ne _ _ _ _ (fun hrk => (h rfl) hrk.symm)]

/-- A read through a change record survives an unrelated write. -/
theorem userContentOf_writeUser (st : DirState) (sbw : Bool) (k v : String)
    (c : Change) (h : sbw = isStatusBarFile c.file → k ≠ relFileOf c) :
    userContentOf (writeUser st sbw k v) c = userContentOf st c :=
  readUser_writeUser_ne st sbw k v (isStatusBarFile c.file) (relFileOf c) h

/-- A file carrying the status-bar prefix decomposes as the prefix plus its
stripped remainder. -/
theorem statusBar_decomp {f : String} (hf : isStatusBarFile f = true) :
    f = "status-bar/" ++ stripStatusBar f := by
  rw [isStatusBarFile] at hf
  have hpre : "status-bar/".data <+: f.data := List.isPrefixOf_iff_prefix.mp hf
  obtain ⟨t, ht⟩ := hpre
  have hdrop : f.data.drop 11 = t := by
    rw [← ht]
    exact List.drop_left' (show ("status-bar/".data).length = 11 by rfl)
  apply String.ext
  rw [String.data_append, stripStatusBar, hdrop, ht]

/-- Equal stripped names with equal prefix status force equal files. -/
theorem relFileOf_inj {a b : Change}
    (hsb : isStatusBarFile a.file = isStatusBarFile b.file)
    (h : relFileOf a = relFileOf b) : a.file = b.file := by
  rcases hb : isStatusBarFile b.file with _ | _
  · rw [relFileOf, relFileOf, hsb, hb] at h
    simpa using h
  · rw [relFileOf, relFileOf, hsb, hb] at h
    simp only [if_true, ite_true] at h
    rw [statusBar_decomp (hsb.trans hb), statusBar_decomp hb, h]

/-- A stripped sidecar name equal to another record's stripped name forces
the sidecar path relation on the full files. -/
theorem relFileOf_orig {a b : Change}
    (hsb : isStatusBarFile a.file = isStatusBarFile b.file)
    (h : relFileOf a ++ ".orig" = relFileOf b) : a.file ++ ".orig" = b.file := by
  rcases hb : isStatusBarFile b.file with _ | _
  · rw [relFileOf, relFileOf, hsb, hb] at h
    simpa using h
  · rw [relFileOf, relFileOf, hsb, hb] at h
    simp only [if_true, ite_true] at h
    rw [statusBar_decomp (hsb.trans hb), statusBar_decomp hb, ← h,
      String.append_assoc]

/-- Applying an unrelated change record does not disturb the content seen
at another record's path. -/
theorem applyOne_preserves (targetDir userTemplateDir : String)
    (pkgT pkgSB : List (String × String)) (st : DirState) (a c : Change)
    (hne : a.file ≠ c.file) (hso : a.file ++ ".orig" ≠ c.file) :
    userContentOf (applyOne targetDir userTemplateDir pkgT pkgSB st a).1 c
      = userContentOf st c := by
  have hkey : isStatusBarFile a.file = isStatusBarFile c.file →
      relFileOf a ≠ relFileOf c :=
    fun hsb h => hne (relFileOf_inj hsb h)
  have hkey2 : isStatusBarFile a.file = isStatusBarFile c.file →
      relFileOf a ++ ".orig" ≠ relFileOf c :=
    fun hsb h => hso (relFileOf_orig hsb h)
  rcases hck : a.kind with _ | _ | _
  · simp only [applyOne, hck]
    exact userContentOf_writeUser st _ _ _ c hkey
  · simp only [applyOne, hck]
  · simp only [applyOne, hck]
    rcases hum : a.userModified with _ | _
    · simp only [Bool.false_eq_true, if_false, ite_false]
      exact userContentOf_writeUser st _ _ _ c hkey
    · simp only [if_true, ite_true]
      rw [userContentOf_writeUser _ _ _ _ c hkey,
        userContentOf_writeUser _ _ _ _ c hkey2]

/-- The apply loop emits, for a modified-and-locally-modified record, the
sidecar write of the content currently at the record's path immediately
followed by the upstream overwrite — provided no other record shares the
path and no record's path is this record's sidecar path. -/
theorem applyChanges_sidecar_aux (targetDir userTemplateDir : String)
    (pkgT pkgSB : List (String × String)) (c : Change)
    (hkind : c.kind = ChangeKind.modified) (hum : c.userModified = true) :
    ∀ (cs : List Change) (st : DirState), c ∈ cs →
    (cs.map Change.file).Nodup →
    (∀ a ∈ cs, a.file ++ ".orig" ≠ c.file) →
    ∃ pre post,
      (applyChanges targetDir userTemplateDir pkgT pkgSB st cs).2.1
        = pre ++ Effect.writeFile (userPathOf targetDir userTemplateDir c ++ ".orig")
              (userContentOf st c)
            :: Effect.copyFile (userPathOf targetDir userTemplateDir c)
              (packageContentOf pkgT pkgSB c)
            :: post := by
  intro cs
  induction cs with
  | nil =>
    intro st hc
    exact absurd hc (List.not_mem_nil c)
  | cons a rest ih =>
    intro st hc hnd hsid
    by_cases hac : a = c
    · subst hac
      refine ⟨[], (applyChanges targetDir userTemplateDir pkgT pkgSB
          (applyOne targetDir userTemplateDir pkgT pkgSB st a).1 rest).2.1, ?_⟩
      rw [applyChanges]
      simp only [applyOne, userContentOf, hkind, hum, if_true, ite_true,
        List.nil_append, List.cons_append]
    · have hcr : c ∈ rest := by
        rcases List.mem_cons.mp hc with h | h
        · exact absurd h.symm hac
        · exact h
      have hfne : a.file ≠ c.file := by
        intro hf
        rw [List.map_cons, List.nodup_cons] at hnd
        exact hnd.1 (hf ▸ List.mem_map_of_mem Change.file hcr)
      have hnd' : (rest.map Change.file).Nodup := by
        rw [List.map_cons, List.nodup_cons] at hnd
        exact hnd.2
      obtain ⟨pre, post, heq⟩ :=
        ih (applyOne targetDir userTemplateDir pkgT pkgSB st a).1 hcr hnd'
          (fun b hb => hsid b (List.mem_cons_of_mem a hb))
      rw [applyOne_preserves targetDir userTemplateDir pkgT pkgSB st a c hfne
        (hsid a (List.mem_cons_self a rest))] at heq
      refine ⟨(applyOne targetDir userTemplateDir pkgT pkgSB st a).2.1 ++ pre, post, ?_⟩
      rw [applyChanges]
      simp only [heq, List.append_assoc]

/-- C3. Sidecar preservation on conflict: on the non-dry-run accepted path,
for every `modified` change record with `userModified = true`, the
orchestrator's effect trace writes the user's pre-upgrade content of that
path to the `.orig` sidecar and, immediately afterwards, overwrites the
live file with the upstream version — the user's content is preserved
before the live file is touched. The two well-formedness hypotheses say no
two records share a path and no record's path is another record's sidecar
path (in the source, paths come from a deduplicated directory walk and
template files are not `.orig` sidecars). -/
theorem upgrade_sidecar_preservation (hashFile : String → String)
    (pkgVersion timestamp : String) (options : UpgradeOptions) (fs : Fs)
    (promptAnswer : Bool) (vi : VersionInfo)
    (pkgT : List (String × String))
    (hdir : fs.targetDirExists = true)
    (hvf : fs.versionFile = some vi)
    (hnup : ¬(vi.version = pkgVersion ∧ options.force = false))
    (hpkg : fs.packageTemplate = some pkgT)
    (hdry : options.dryRun = false)
    (hans : promptAnswer = true)
    (hnodup : ((upgradeChanges hashFile fs vi pkgT).map Change.file).Nodup)
    (hsid : ∀ a ∈ upgradeChanges hashFile fs vi pkgT,
      ∀ b ∈ upgradeChanges hashFile fs vi pkgT, a.file ++ ".orig" ≠ b.file)
    (c : Change) (hc : c ∈ upgradeChanges hashFile fs vi pkgT)
    (hkind : c.kind = ChangeKind.modified) (hum : c.userModified = true) :
    ∃ pre post,
      (upgrade hashFile pkgVersion timestamp options fs promptAnswer).effects
        = pre ++ Effect.writeFile
              (userPathOf options.dir
                (pjoin (pjoin options.dir "templates") vi.template) c ++ ".orig")
              (userContentOf ⟨fs.userTemplate, fs.userStatusBar⟩ c)
            :: Effect.copyFile
              (userPathOf options.dir
                (pjoin (pjoin options.dir "templates") vi.template) c)
              (packageContentOf pkgT (fs.packageStatusBar.getD []) c)
            :: post := by
  have hchne : upgradeChanges hashFile fs vi pkgT ≠ [] := by
    intro h0
    rw [h0] at hc
    exact absurd hc (List.not_mem_nil c)
  obtain ⟨pre, post, heq⟩ :=
    applyChanges_sidecar_aux options.dir
      (pjoin (pjoin options.dir "templates") vi.template) pkgT
      (fs.packageStatusBar.getD []) c hkind hum
      (upgradeChanges hashFile fs vi pkgT) ⟨fs.userTemplate, fs.userStatusBar⟩
      hc hnodup (fun a ha => hsid a ha c hc)
  rw [upgrade, hdir, hvf, if_neg (by simp)]
  simp only
  rw [if_neg hnup, hpkg]
  simp only
  rw [if_neg hchne, if_neg (by simp [hdry]), if_neg (by simp [hans])]
  refine ⟨([Effect.mkdirRec (pjoin options.dir (".storepix-backup-" ++ timestamp)),
      Effect.copyTree (pjoin (pjoin options.dir "templates") vi.template)
        (pjoin (pjoin options.dir (".storepix-backup-" ++ timestamp)) vi.template)]
      ++ (if fs.userStatusBar.isSome then
            [Effect.copyTree (pjoin (pjoin options.dir "templates") "status-bar")
              (pjoin (pjoin options.dir (".storepix-backup-" ++ timestamp)) "status-bar")]
          else [])) ++ pre,
    post ++ [Effect.writeVersionFile (mkVersionInfo hashFile pkgVersion vi.template
      (applyChanges options.dir (pjoin (pjoin options.dir "templates") vi.template)
        pkgT (fs.packageStatusBar.getD []) ⟨fs.userTemplate, fs.userStatusBar⟩
        (upgradeChanges hashFile fs vi pkgT)).1)], ?_⟩
  simp only [heq, List.append_assoc, List.cons_append, List.nil_append]

/-- Witness for C3: a concrete project with one locally modified template
file; the upgrade writes the `.orig` sidecar with the user's content and
then overwrites the file with the upstream content. -/
theorem upgrade_sidecar_preservation_witness :
    ((⟨"f.html", ChangeKind.modified, true⟩ : Change) ∈
        upgradeChanges id
          ⟨true, some ⟨"1.0.0", "modern", [("f.html", "old")], none⟩, [],
            [("f.html", "mine")], none, some [("f.html", "theirs")], none⟩
          ⟨"1.0.0", "modern", [("f.html", "old")], none⟩ [("f.html", "theirs")]
      ∧ (⟨"proj", false, false, false⟩ : UpgradeOptions).dryRun = false)
    ∧ ∃ pre post,
      (upgrade id "2.0.0" "111" ⟨"proj", false, false, false⟩
          ⟨true, some ⟨"1.0.0", "modern", [("f.html", "old")], none⟩, [],
            [("f.html", "mine")], none, some [("f.html", "theirs")], none⟩
          true).effects
        = pre ++ Effect.writeFile
              (userPathOf "proj" (pjoin (pjoin "proj" "templates") "modern")
                ⟨"f.html", ChangeKind.modified, true⟩ ++ ".orig")
              (userContentOf ⟨[("f.html", "mine")], none⟩
                ⟨"f.html", ChangeKind.modified, true⟩)
            :: Effect.copyFile
              (userPathOf "proj" (pjoin (pjoin "proj" "templates") "modern")
                ⟨"f.html", ChangeKind.modified, true⟩)
              (packageContentOf [("f.html", "theirs")] []
                ⟨"f.html", ChangeKind.modified, true⟩)
            :: post :=
  ⟨⟨by decide, rfl⟩,
   upgrade_sidecar_preservation id "2.0.0" "111" ⟨"proj", false, false, false⟩
     ⟨true, some ⟨"1.0.0", "modern", [("f.html", "old")], none⟩, [],
       [("f.html", "mine")], none, some [("f.html", "theirs")], none⟩
     true ⟨"1.0.0", "modern", [("f.html", "old")], none⟩ [("f.html", "theirs")]
     rfl rfl (by decide) rfl rfl rfl (by decide) (by decide)
     ⟨"f.html", ChangeKind.modified, true⟩ (by decide) rfl rfl⟩

end Storepix
